import Mathlib

/-!
Shallow embedding of the sparse-vec crate.

The crate has two modules.  The module `bogus_allocs` defines `BogusAlloc`, an
allocator whose `allocate` always fails and whose `deallocate` panics, together
with the two transplant helpers `take` and `allocator`.  The module
`sparse_vecs` defines `SparseVec<T, Alloc>`, a pair of parallel growable
vectors `indices` and `values`; `indices` is kept sorted and duplicate free.

Rust allocator values of every allocator type are embedded into the single
Lean type `AllocVal`: `AllocVal.bogus` is the unique value of `BogusAlloc`,
and `AllocVal.real id` stands for a value of a real allocator type.  A Rust
`Vec<T, A>` is embedded as `VecM` holding its element list, its capacity and
the allocator value it owns inline, exactly as a Rust vector owns its
allocator field.  Query operations are pure functions of the container value;
mutating operations return the updated container.
-/

namespace SparseVecLib

/-- Allocator values: the stand-in allocator `BogusAlloc`, or a value of a
real allocator type identified by `id`.  Cloning an allocator value yields
the value itself. -/
inductive AllocVal : Type where
  | bogus : AllocVal
  | real (id : Nat) : AllocVal
deriving DecidableEq

/-- Embedding of `core::alloc::Layout`: size and alignment of a request. -/
structure Layout : Type where
  size : Nat
  align : Nat
deriving DecidableEq

/-- Embedding of `alloc::alloc::AllocError`, a unit error value. -/
inductive AllocError : Type where
  | mk : AllocError
deriving DecidableEq

/-- A returned memory block, embedding `NonNull<[u8]>`: address and size. -/
structure MemBlock : Type where
  addr : Nat
  size : Nat
deriving DecidableEq

/-- Outcome of a Rust call that can panic. -/
inductive PanicResult (α : Type) : Type where
  | ok (value : α) : PanicResult α
  | panicked (msg : String) : PanicResult α
deriving DecidableEq

/-- Embedding of `Vec<T, A>`: the stored elements, the capacity of the
backing buffer, and the allocator value the vector owns. -/
structure VecM (α : Type) : Type where
  data : List α
  cap : Nat
  alloc : AllocVal
deriving DecidableEq

namespace VecM

/-- Embedding of `Vec::new_in(alloc)`: empty vector owning `a`. -/
def new_in (α : Type) (a : AllocVal) : VecM α :=
  { data := [], cap := 0, alloc := a }

/-- Embedding of `Vec::with_capacity_in(capacity, alloc)`. -/
def with_capacity_in (α : Type) (capacity : Nat) (a : AllocVal) : VecM α :=
  { data := [], cap := capacity, alloc := a }

/-- Embedding of `Vec::len`. -/
def len {α : Type} (v : VecM α) : Nat := v.data.length

/-- Embedding of `Vec::reserve(additional)`: afterwards the capacity is at
least `len + additional`; elements and the owned allocator are untouched. -/
def reserve {α : Type} (v : VecM α) (additional : Nat) : VecM α :=
  { v with cap := max v.cap (v.data.length + additional) }

/-- Embedding of `Vec::insert(i, x)`: shifts the tail right by one slot and
writes `x` at position `i`, growing the buffer by at least one slot when it
is full. -/
def insert {α : Type} (v : VecM α) (i : Nat) (x : α) : VecM α :=
  { v with data := v.data.take i ++ x :: v.data.drop i,
           cap := max v.cap (v.data.length + 1) }

/-- Embedding of the write half of `mem::replace(&mut v[i], x)`: overwrite
the element at position `i` with `x`. -/
def setAt {α : Type} (v : VecM α) (i : Nat) (x : α) : VecM α :=
  { v with data := v.data.set i x }

end VecM

namespace BogusAlloc

/-- Embedding of `Allocator::allocate` for `BogusAlloc`: every request fails
with `AllocError`; no memory block is ever returned. -/
def allocate (_layout : Layout) : Except AllocError MemBlock :=
  Except.error AllocError.mk

/-- Embedding of `Allocator::deallocate` for `BogusAlloc`: the body is
`unreachable!("no deallocation is allowed")`, which panics with that
message whenever it is reached. -/
def deallocate (_ptr : Nat) (_layout : Layout) : PanicResult Unit :=
  PanicResult.panicked "no deallocation is allowed"

/-- Embedding of `BogusAlloc::take(vec, allocator)`: the argument vector,
typed against `BogusAlloc`, is replaced in place by a fresh empty
`BogusAlloc` vector, and its raw parts (pointer, length, capacity) are
rebuilt into a vector owning `a`.  First component: the rebuilt vector;
second component: the replacement left in the argument variable. -/
def take {α : Type} (vec : VecM α) (a : AllocVal) : VecM α × VecM α :=
  ({ data := vec.data, cap := vec.cap, alloc := a }, VecM.new_in α AllocVal.bogus)

/-- Embedding of `BogusAlloc::allocator(vec)`: deconstruct `vec` with its
allocator, rebuild the raw parts over `BogusAlloc`, and return the rebuilt
vector together with the extracted allocator value. -/
def allocator {α : Type} (vec : VecM α) : VecM α × AllocVal :=
  ({ data := vec.data, cap := vec.cap, alloc := AllocVal.bogus }, vec.alloc)

end BogusAlloc

/-- First position of `x` in `xs`, if any. -/
def findPos (xs : List Nat) (x : Nat) : Option Nat :=
  match xs with
  | [] => none
  | y :: ys => if y = x then some 0 else (findPos ys x).map (· + 1)

/-- Model of `slice::binary_search(&x)` by its documented contract: `ok i`
with `xs` holding `x` at position `i` when `x` occurs, otherwise `error e`
with `e` the position where `x` could be inserted to keep the slice sorted.
For the sorted duplicate-free slices maintained by `SparseVec` this is the
exact behaviour of the Rust binary search; on unsorted slices the Rust
result is unspecified. -/
def binarySearch (xs : List Nat) (x : Nat) : Except Nat Nat :=
  match findPos xs x with
  | some i => Except.ok i
  | none => Except.error (xs.countP (fun y => decide (y < x)))

/-- Tests whether an `Except` result is the `ok` case, embedding
`Result::is_ok`. -/
def isOkE {ε α : Type} (e : Except ε α) : Bool :=
  match e with
  | Except.ok _ => true
  | Except.error _ => false

/-- Embedding of `SparseVec<T, Alloc>`: the parallel vectors of external
indices and stored values, each owning its allocator value inline. -/
structure SparseVec (α : Type) : Type where
  indices : VecM Nat
  values : VecM α
deriving DecidableEq

namespace SparseVec

/-- Embedding of `SparseVec::into_parts`: reads both fields out of the
container and forgets the container, returning `(indices, values)`. -/
def into_parts {α : Type} (v : SparseVec α) : VecM Nat × VecM α :=
  (v.indices, v.values)

/-- Embedding of `SparseVec::from_parts(indices, values)`.  The documented
unchecked precondition is that the index list is unique and sorted. -/
def from_parts {α : Type} (indices : VecM Nat) (values : VecM α) : SparseVec α :=
  { indices := indices, values := values }

/-- Embedding of `SparseVec::new_in(allocator)`: two empty vectors are built,
one over a clone of `a` and one over `a` itself; cloning an allocator value
yields an equal value. -/
def new_in {α : Type} (a : AllocVal) : SparseVec α :=
  from_parts (VecM.new_in Nat a) (VecM.new_in α a)

/-- Embedding of `SparseVec::with_capacity_in(capacity, allocator)`. -/
def with_capacity_in {α : Type} (capacity : Nat) (a : AllocVal) : SparseVec α :=
  from_parts (VecM.with_capacity_in Nat capacity a) (VecM.with_capacity_in α capacity a)

/-- Embedding of `SparseVec::count`: the length of the index vector. -/
def count {α : Type} (v : SparseVec α) : Nat := v.indices.data.length

/-- Embedding of `SparseVec::is_empty`. -/
def is_empty {α : Type} (v : SparseVec α) : Bool := v.indices.data.isEmpty

/-- Embedding of `SparseVec::is_set(index)`: binary search over the index
vector, succeeding exactly on the `Ok` case. -/
def is_set {α : Type} (v : SparseVec α) (index : Nat) : Bool :=
  isOkE (binarySearch v.indices.data index)

/-- Embedding of `SparseVec::get(index)`: binary search for `index`; on
success read the value at the found position.  The source reads with
`get_unchecked`, whose precondition (position in bounds) holds under the
parallel-array invariant; out of bounds the model returns `none`. -/
def get {α : Type} (v : SparseVec α) (index : Nat) : Option α :=
  match binarySearch v.indices.data index with
  | Except.ok vi => v.values.data[vi]?
  | Except.error _ => none

/-- Embedding of the lookup performed by `SparseVec::get_mut(index)`; the
returned mutable reference designates the value at the found position. -/
def get_mut {α : Type} (v : SparseVec α) (index : Nat) : Option α :=
  match binarySearch v.indices.data index with
  | Except.ok vi => v.values.data[vi]?
  | Except.error _ => none

/-- Embedding of `SparseVec::reserve(space)`: reserve `space` more slots on
each of the two vectors directly. -/
def reserve {α : Type} (v : SparseVec α) (space : Nat) : SparseVec α :=
  { indices := v.indices.reserve space, values := v.values.reserve space }

/-- Embedding of `SparseVec::set(index, value)`: binary search for `index`;
on `Ok vi` replace the value at `vi` and return the previous value, on
`Err vi` insert `index` and `value` at position `vi` in the two vectors and
return `None`.  First component: the returned previous value; second
component: the updated container.  The source replaces through the checked
indexing `self.values[vi]`, in bounds under the parallel-array invariant. -/
def set {α : Type} (v : SparseVec α) (index : Nat) (value : α) :
    Option α × SparseVec α :=
  match binarySearch v.indices.data index with
  | Except.ok vi =>
      (v.values.data[vi]?, { v with values := v.values.setAt vi value })
  | Except.error vi =>
      (none, { indices := v.indices.insert vi index,
               values := v.values.insert vi value })

/-- Embedding of `SparseVec::iter`: the index vector zipped with the value
vector, in storage order. -/
def iter {α : Type} (v : SparseVec α) : List (Nat × α) :=
  v.indices.data.zip v.values.data

/-- Embedding of `Index::index`: `get(index).expect("accessed and empty
index")`; an unset index panics with exactly that message. -/
def indexGet {α : Type} (v : SparseVec α) (index : Nat) : Except String α :=
  match v.get index with
  | some value => Except.ok value
  | none => Except.error "accessed and empty index"

/-- Embedding of `IndexMut::index_mut`: the same lookup and the same panic
message as `Index::index`. -/
def indexGetMut {α : Type} (v : SparseVec α) (index : Nat) : Except String α :=
  match v.get_mut index with
  | some value => Except.ok value
  | none => Except.error "accessed and empty index"

/-- Embedding of `PartialEq` on `Vec`: two vectors compare equal exactly when
their element sequences are equal; capacity and allocator do not take part. -/
def vecContentEq {α : Type} (a b : VecM α) : Prop := a.data = b.data

/-- Embedding of `PartialEq` for `SparseVec`: `indices == rhs.indices &&
values == rhs.values`, each comparison by element sequence. -/
def sparseEq {α : Type} (v w : SparseVec α) : Prop :=
  vecContentEq v.indices w.indices ∧ vecContentEq v.values w.values

/-- The representation invariant documented on the `indices` and `values`
fields: the index list is sorted strictly ascending and the two lists have
equal length. -/
def Invariant {α : Type} (v : SparseVec α) : Prop :=
  v.indices.data.Sorted (· < ·) ∧ v.indices.data.length = v.values.data.length

/-- The allocator values the container holds, one inside each of its two
vectors. -/
def storedAllocators {α : Type} (v : SparseVec α) : List AllocVal :=
  [v.indices.alloc, v.values.alloc]

end SparseVec

/-- Modelled from the spec: the transplant-out, grow, transplant-in pair the
spec describes for `reserve` on one stored sequence.  The stored sequence is
taken out (`BogusAlloc::take` rebuilds it over the real allocator), grown,
and detached again (`BogusAlloc::allocator` rebuilds it over the stand-in),
so the stored sequence is typed against the stand-in before and after.
First component: the sequence as stored back; second component: the real
allocator value handed back to the container. -/
def reserveViaTransplant {α : Type} (seq : VecM α) (realAlloc : AllocVal)
    (space : Nat) : VecM α × AllocVal :=
  BogusAlloc.allocator ((BogusAlloc.take seq realAlloc).1.reserve space)

/-- Modelled from the spec: the deconstruction the spec describes, returning
the container's two raw sequences plus the allocator.  Each stored sequence
is detached from its allocator with the transplant primitive
(`BogusAlloc::allocator`), so the returned raw sequences are stand-in-typed
and the real allocator value comes back as a separate third component. -/
def intoPartsWithAllocSpec {α : Type} (v : SparseVec α) :
    VecM Nat × VecM α × AllocVal :=
  ((BogusAlloc.allocator v.indices).1, (BogusAlloc.allocator v.values).1,
    (BogusAlloc.allocator v.indices).2)

/-- Folds a list of `(index, value)` insertions over a container with
`SparseVec::set`, discarding the returned previous values; used to speak
about arbitrary sequences of insertions. -/
def setAll {α : Type} (v : SparseVec α) (ops : List (Nat × α)) : SparseVec α :=
  ops.foldl (fun w p => (w.set p.1 p.2).2) v

/-- The invariant set as the spec phrases it: the index list is strictly
increasing, it has no duplicate indices, and the two lists have equal
length. -/
def FullInvariant {α : Type} (v : SparseVec α) : Prop :=
  v.indices.data.Sorted (· < ·) ∧ v.indices.data.Nodup ∧
  v.indices.data.length = v.values.data.length

/-- A concrete sample container used to instantiate the theorems: indices
`[2, 5]` with values `[20, 50]`, capacities 4, allocator `real 0`. -/
def v0 : SparseVec Nat :=
  SparseVec.from_parts
    { data := [2, 5], cap := 4, alloc := AllocVal.real 0 }
    { data := [20, 50], cap := 4, alloc := AllocVal.real 0 }

/-- Decidability of the representation invariant, for evaluation on concrete
containers. -/
instance invariantDecidable {α : Type} (v : SparseVec α) :
    Decidable (SparseVec.Invariant v) := by
  unfold SparseVec.Invariant
  infer_instance

/-- Decidability of the spec-phrased invariant set, for evaluation on
concrete containers. -/
instance fullInvariantDecidable {α : Type} (v : SparseVec α) :
    Decidable (FullInvariant v) := by
  unfold FullInvariant
  infer_instance

open SparseVec

/-- C9: for every layout the stand-in allocator fails the allocation with an
allocation-failure error and never returns a memory block, and every reach of
its deallocation path panics with the message of its unreachable arm. -/
theorem bogus_alloc_behavior :
    (∀ layout : Layout, BogusAlloc.allocate layout = Except.error AllocError.mk) ∧
    (∀ (layout : Layout) (blk : MemBlock), BogusAlloc.allocate layout ≠ Except.ok blk) ∧
    (∀ (ptr : Nat) (layout : Layout),
      BogusAlloc.deallocate ptr layout =
        PanicResult.panicked "no deallocation is allowed") :=
  ⟨fun _ => rfl, fun _ _ h => Except.noConfusion h, fun _ _ => rfl⟩

/-- C10: reserve leaves the logical contents unchanged: the count, the
iteration sequence, both element lists and both stored allocator values are
identical before and after; only the capacities change. -/
theorem reserve_frame : ∀ (α : Type) (v : SparseVec α) (space : Nat),
    (v.reserve space).count = v.count ∧
    (v.reserve space).iter = v.iter ∧
    (v.reserve space).indices.data = v.indices.data ∧
    (v.reserve space).values.data = v.values.data ∧
    (v.reserve space).indices.alloc = v.indices.alloc ∧
    (v.reserve space).values.alloc = v.values.alloc :=
  fun _ _ _ => ⟨rfl, rfl, rfl, rfl, rfl, rfl⟩

/-- C8: container equality is reflexive and symmetric, holds exactly when the
index and value sequences are equal, and ignores both capacities and both
stored allocator values. -/
theorem eq_content_refl_symm : ∀ (α : Type) (v w : SparseVec α),
    sparseEq v v ∧
    (sparseEq v w ↔ sparseEq w v) ∧
    (sparseEq v w ↔ (v.indices.data = w.indices.data ∧ v.values.data = w.values.data)) ∧
    (∀ (ci cv : Nat) (ai av : AllocVal),
      sparseEq v { indices := { data := w.indices.data, cap := ci, alloc := ai },
                   values := { data := w.values.data, cap := cv, alloc := av } } ↔
        sparseEq v w) := by
  intro α v w
  refine ⟨⟨rfl, rfl⟩, ?_, Iff.rfl, ?_⟩
  · constructor
    · rintro ⟨h1, h2⟩
      exact ⟨h1.symm, h2.symm⟩
    · rintro ⟨h1, h2⟩
      exact ⟨h1.symm, h2.symm⟩
  · intro ci cv ai av
    exact Iff.rfl

/-- C4 counterexample: the container built by `new_in` over a real allocator
stores a real allocator value inside each of its two sequences, so the
stored sequences are typed against the real allocator rather than the
stand-in, and the container holds two stored allocator values, not one. -/
theorem allocator_storage_refutation :
    (SparseVec.new_in (AllocVal.real 0) : SparseVec Nat).indices.alloc ≠ AllocVal.bogus ∧
    (SparseVec.new_in (AllocVal.real 0) : SparseVec Nat).values.alloc ≠ AllocVal.bogus ∧
    storedAllocators (SparseVec.new_in (AllocVal.real 0) : SparseVec Nat) =
      [AllocVal.real 0, AllocVal.real 0] := by
  refine ⟨?_, ?_, rfl⟩ <;> intro h <;> exact AllocVal.noConfusion h

/-- C4 amended: every container built by the constructors stores one clone of
the supplied allocator value inside each of its two sequences, the sequences
are typed against the real allocator at all times, and `reserve` and `set`
leave both stored allocator values unchanged. -/
theorem allocator_per_sequence : ∀ (α : Type) (a : AllocVal),
    storedAllocators (SparseVec.new_in a : SparseVec α) = [a, a] ∧
    (∀ c : Nat, storedAllocators (SparseVec.with_capacity_in c a : SparseVec α) = [a, a]) ∧
    (∀ (v : SparseVec α) (s : Nat),
      (v.reserve s).indices.alloc = v.indices.alloc ∧
      (v.reserve s).values.alloc = v.values.alloc) ∧
    (∀ (v : SparseVec α) (i : Nat) (x : α),
      (v.set i x).2.indices.alloc = v.indices.alloc ∧
      (v.set i x).2.values.alloc = v.values.alloc) := by
  intro α a
  refine ⟨rfl, fun _ => rfl, fun _ _ => ⟨rfl, rfl⟩, ?_⟩
  intro v i x
  cases h : binarySearch v.indices.data i <;>
    simp [SparseVec.set, h, VecM.insert, VecM.setAt]

/-- C5 counterexample: on the concrete container built over the real
allocator `real 0`, `reserve 5` leaves the index sequence stored with its
real allocator value, while the transplant-out, grow, transplant-in pair of
the spec stores the sequence back typed against the stand-in allocator; the
two resulting stored sequences differ, so `reserve` does not work by the
transplant pair. -/
theorem reserve_transplant_refutation :
    ((SparseVec.new_in (AllocVal.real 0) : SparseVec Nat).reserve 5).indices.alloc =
      AllocVal.real 0 ∧
    ((SparseVec.new_in (AllocVal.real 0) : SparseVec Nat).reserve 5).indices.alloc ≠
      AllocVal.bogus ∧
    (reserveViaTransplant (SparseVec.new_in (AllocVal.real 0) : SparseVec Nat).indices
        (AllocVal.real 0) 5).1.alloc = AllocVal.bogus ∧
    ((SparseVec.new_in (AllocVal.real 0) : SparseVec Nat).reserve 5).indices ≠
      (reserveViaTransplant (SparseVec.new_in (AllocVal.real 0) : SparseVec Nat).indices
        (AllocVal.real 0) 5).1 := by
  refine ⟨rfl, ?_, rfl, ?_⟩ <;> decide

/-- C5 amended: `reserve(space)` ensures each of the two sequences has room
for `space` more entries without reallocating, by calling each sequence's
own reserve directly with its stored allocator value; no stand-in transplant
takes place and both stored allocator values are unchanged. -/
theorem reserve_capacity_direct : ∀ (α : Type) (v : SparseVec α) (space : Nat),
    (v.reserve space).indices.data.length + space ≤ (v.reserve space).indices.cap ∧
    (v.reserve space).values.data.length + space ≤ (v.reserve space).values.cap ∧
    (v.reserve space).indices.alloc = v.indices.alloc ∧
    (v.reserve space).values.alloc = v.values.alloc ∧
    v.reserve space =
      { indices := v.indices.reserve space, values := v.values.reserve space } := by
  intro α v space
  exact ⟨Nat.le_max_right _ _, Nat.le_max_right _ _, rfl, rfl, rfl⟩

/-- C6 counterexample: on the concrete container `v0` the deconstruction
entry point returns only the pair of the two sequences, each with its real
allocator value still attached inline: both returned sequences carry the
real allocator value `real 0`, neither is the detached stand-in-typed raw
sequence that a sequences-plus-allocator deconstruction (modelled from the
spec as `intoPartsWithAllocSpec`) hands back, and the code's output has no
counterpart to that deconstruction's separate allocator component; so
`into_parts` does not return the two raw sequences plus the allocator. -/
theorem into_parts_no_separate_allocator :
    (v0.into_parts).1.alloc = AllocVal.real 0 ∧
    (v0.into_parts).2.alloc = AllocVal.real 0 ∧
    (v0.into_parts).1.alloc ≠ AllocVal.bogus ∧
    (v0.into_parts).1 ≠ (intoPartsWithAllocSpec v0).1 ∧
    (v0.into_parts).2 ≠ (intoPartsWithAllocSpec v0).2.1 ∧
    (intoPartsWithAllocSpec v0).2.2 = AllocVal.real 0 := by
  refine ⟨rfl, rfl, ?_, ?_, ?_, rfl⟩ <;> decide

/-- C6 amended: deconstruction returns exactly the container's two raw
sequences, each still carrying its backing allocator value inline with no
separate allocator component, and reconstruction is its exact inverse:
rebuilding from the deconstructed parts yields a container equal to the
original, with the same indices and the same values in the same order, both
as structural equality and under the crate's own equality. -/
theorem into_parts_from_parts_roundtrip :
    ∀ (α : Type) (v : SparseVec α) (ind : VecM Nat) (vals : VecM α),
    SparseVec.from_parts (v.into_parts).1 (v.into_parts).2 = v ∧
    (SparseVec.from_parts ind vals).into_parts = (ind, vals) ∧
    (v.into_parts).1 = v.indices ∧
    (v.into_parts).2 = v.values ∧
    (v.into_parts).1.alloc = v.indices.alloc ∧
    (v.into_parts).2.alloc = v.values.alloc ∧
    (SparseVec.from_parts (v.into_parts).1 (v.into_parts).2).indices.data =
      v.indices.data ∧
    (SparseVec.from_parts (v.into_parts).1 (v.into_parts).2).values.data =
      v.values.data ∧
    sparseEq (SparseVec.from_parts (v.into_parts).1 (v.into_parts).2) v :=
  fun _ _ _ _ => ⟨rfl, rfl, rfl, rfl, rfl, rfl, rfl, rfl, rfl, rfl⟩

/-- A list with no occurrence of `x` gives no position for `x`. -/
theorem findPos_none_not_mem : ∀ (xs : List Nat) (x : Nat),
    findPos xs x = none → x ∉ xs := by
  intro xs x
  induction xs with
  | nil => intro _ hx; cases hx
  | cons y ys ih =>
    intro h hx
    by_cases hyx : y = x
    · rw [findPos, if_pos hyx] at h
      cases h
    · rw [findPos, if_neg hyx] at h
      rw [Option.map_eq_none'] at h
      rcases List.mem_cons.mp hx with e | m
      · exact hyx e.symm
      · exact ih h m

/-- An occurring element has a position. -/
theorem mem_findPos : ∀ (xs : List Nat) (x : Nat),
    x ∈ xs → ∃ i, findPos xs x = some i := by
  intro xs x
  induction xs with
  | nil => intro hx; cases hx
  | cons y ys ih =>
    intro hx
    by_cases hyx : y = x
    · exact ⟨0, by rw [findPos, if_pos hyx]⟩
    · have hm : x ∈ ys := by
        rcases List.mem_cons.mp hx with e | m
        · exact absurd e.symm hyx
        · exact m
      rcases ih hm with ⟨i, hi⟩
      exact ⟨i + 1, by rw [findPos, if_neg hyx, hi]; rfl⟩

/-- Every found position is in bounds. -/
theorem findPos_lt_length : ∀ (xs : List Nat) (x i : Nat),
    findPos xs x = some i → i < xs.length := by
  intro xs
  induction xs with
  | nil => intro x i h; cases h
  | cons y ys ih =>
    intro x i h
    rw [findPos] at h
    by_cases hyx : y = x
    · rw [if_pos hyx] at h
      cases h
      simp
    · rw [if_neg hyx] at h
      cases hfp : findPos ys x with
      | none => rw [hfp] at h; cases h
      | some k =>
        rw [hfp] at h
        have hk := ih x k hfp
        have : k + 1 = i := by
          simpa using h
        simp [List.length_cons]
        omega

/-- The first position of `x` after a prefix free of `x` is the prefix
length. -/
theorem findPos_append : ∀ (as bs : List Nat) (x : Nat),
    (∀ a ∈ as, a ≠ x) → findPos (as ++ x :: bs) x = some as.length := by
  intro as bs x
  induction as with
  | nil => intro _; rw [List.nil_append, findPos, if_pos rfl]; rfl
  | cons a as ih =>
    intro h
    have ha : a ≠ x := h a (List.mem_cons_self a as)
    rw [List.cons_append, findPos, if_neg ha,
      ih (fun b hb => h b (List.mem_cons_of_mem a hb))]
    rfl

/-- The `Ok` case of the binary search is exactly a found position. -/
theorem binarySearch_ok {xs : List Nat} {x vi : Nat} :
    binarySearch xs x = Except.ok vi ↔ findPos xs x = some vi := by
  unfold binarySearch
  cases h : findPos xs x <;> simp

/-- The `Err` case of the binary search is exactly a missing element, with
the count of smaller elements as insertion point. -/
theorem binarySearch_error {xs : List Nat} {x e : Nat} :
    binarySearch xs x = Except.error e ↔
      (findPos xs x = none ∧ e = xs.countP (fun y => decide (y < x))) := by
  unfold binarySearch
  cases h : findPos xs x <;> simp [eq_comm]

/-- When no element below the head is smaller than `x` and the head is not
smaller than `x`, no element at all is smaller than `x`. -/
theorem sorted_countP_eq_zero {x : Nat} : ∀ (zs : List Nat) (z : Nat),
    ¬ z < x → (∀ e ∈ zs, z < e) →
    zs.countP (fun y => decide (y < x)) = 0 := by
  intro zs z hzx hall
  rw [List.countP_eq_zero]
  intro a ha
  simp only [decide_eq_true_eq]
  exact fun hax => hzx (Nat.lt_trans (hall a ha) hax)

/-- In a sorted list, the elements before the insertion point of `x` are all
smaller than `x`. -/
theorem mem_take_countP_lt : ∀ (xs : List Nat) (x : Nat),
    xs.Sorted (· < ·) →
    ∀ y ∈ xs.take (xs.countP (fun z => decide (z < x))), y < x := by
  intro xs
  induction xs with
  | nil => intro x _ y hy; cases hy
  | cons z zs ih =>
    intro x hs y hy
    rw [List.sorted_cons] at hs
    by_cases hzx : z < x
    · have hcnt : (z :: zs).countP (fun y => decide (y < x)) =
          zs.countP (fun y => decide (y < x)) + 1 := by
        simp [List.countP_cons, hzx]
      rw [hcnt, List.take_succ_cons] at hy
      rcases List.mem_cons.mp hy with e | m
      · exact e ▸ hzx
      · exact ih x hs.2 y m
    · have hcnt : (z :: zs).countP (fun y => decide (y < x)) = 0 := by
        simp [List.countP_cons, hzx, sorted_countP_eq_zero zs z hzx hs.1]
      rw [hcnt, List.take_zero] at hy
      cases hy

/-- Inserting a fresh element of a sorted list at its insertion point keeps
the list sorted. -/
theorem insert_at_countP_sorted : ∀ (xs : List Nat) (x : Nat),
    xs.Sorted (· < ·) → x ∉ xs →
    (xs.take (xs.countP (fun z => decide (z < x))) ++
      x :: xs.drop (xs.countP (fun z => decide (z < x)))).Sorted (· < ·) := by
  intro xs
  induction xs with
  | nil =>
    intro x _ _
    simp
  | cons z zs ih =>
    intro x hs hx
    rw [List.sorted_cons] at hs
    by_cases hzx : z < x
    · have hcnt : (z :: zs).countP (fun y => decide (y < x)) =
          zs.countP (fun y => decide (y < x)) + 1 := by
        simp [List.countP_cons, hzx]
      rw [hcnt, List.take_succ_cons, List.drop_succ_cons, List.cons_append,
        List.sorted_cons]
      refine ⟨?_, ih x hs.2 (fun m => hx (List.mem_cons_of_mem z m))⟩
      intro b hb
      rcases List.mem_append.mp hb with hbt | hbc
      · exact hs.1 b (List.take_subset _ _ hbt)
      · rcases List.mem_cons.mp hbc with e | m
        · exact e ▸ hzx
        · exact hs.1 b (List.drop_subset _ _ m)
    · have h0 : (z :: zs).countP (fun y => decide (y < x)) = 0 := by
        simp [List.countP_cons, hzx, sorted_countP_eq_zero zs z hzx hs.1]
      rw [h0, List.take_zero, List.drop_zero, List.nil_append, List.sorted_cons]
      have hxz : x ≠ z := fun e2 => hx (e2 ▸ List.mem_cons_self z zs)
      refine ⟨?_, List.sorted_cons.mpr hs⟩
      intro b hb
      rcases List.mem_cons.mp hb with e | m
      · exact e ▸ Nat.lt_of_le_of_ne (Nat.le_of_not_lt hzx) hxz
      · exact Nat.lt_of_le_of_lt (Nat.le_of_not_lt hzx) (hs.1 b m)

/-- Inserting one element in the middle grows the length by one. -/
theorem length_insert_at {α : Type} (l : List α) (k : Nat) (x : α)
    (hk : k ≤ l.length) :
    (l.take k ++ x :: l.drop k).length = l.length + 1 := by
  simp only [List.length_append, List.length_take, List.length_cons,
    List.length_drop]
  omega

/-- The inserted element is read back at the insertion position. -/
theorem getElem?_insert_self {α : Type} (l : List α) (k : Nat) (x : α)
    (hk : k ≤ l.length) :
    (l.take k ++ x :: l.drop k)[k]? = some x := by
  rw [List.getElem?_append_right (by simp only [List.length_take]; omega)]
  simp [List.length_take, Nat.min_eq_left hk]

/-- The set operation preserves the representation invariant. -/
theorem set_invariant {α : Type} (v : SparseVec α) (i : Nat) (x : α)
    (h : Invariant v) : Invariant (v.set i x).2 := by
  obtain ⟨hs, hl⟩ := h
  cases hbs : binarySearch v.indices.data i with
  | ok vi =>
    refine ⟨?_, ?_⟩
    · simpa [SparseVec.set, hbs] using hs
    · simp [SparseVec.set, hbs, VecM.setAt, hl]
  | error vi =>
    obtain ⟨hfp, he⟩ := binarySearch_error.mp hbs
    have hnm := findPos_none_not_mem _ _ hfp
    have hk : vi ≤ v.indices.data.length := by
      rw [he]; exact List.countP_le_length _
    refine ⟨?_, ?_⟩
    · have hsorted := insert_at_countP_sorted v.indices.data i hs hnm
      rw [← he] at hsorted
      simpa [SparseVec.set, hbs, VecM.insert] using hsorted
    · simp only [SparseVec.set, hbs, VecM.insert]
      rw [length_insert_at _ _ _ hk,
        length_insert_at _ _ _ (hk.trans (le_of_eq hl))]
      omega

/-- After a set the index tests set and reads back the written value. -/
theorem set_get_self {α : Type} (v : SparseVec α) (i : Nat) (x : α)
    (h : Invariant v) :
    (v.set i x).2.get i = some x ∧ (v.set i x).2.is_set i = true := by
  obtain ⟨hs, hl⟩ := h
  cases hbs : binarySearch v.indices.data i with
  | ok vi =>
    have hfp := binarySearch_ok.mp hbs
    have hvi := findPos_lt_length _ _ _ hfp
    have hvi2 : vi < v.values.data.length := hl ▸ hvi
    constructor
    · simp [SparseVec.set, SparseVec.get, hbs, VecM.setAt,
        List.getElem?_set_self hvi2]
    · simp [SparseVec.set, SparseVec.is_set, hbs, VecM.setAt, isOkE]
  | error vi =>
    obtain ⟨hfp, he⟩ := binarySearch_error.mp hbs
    have hk : vi ≤ v.indices.data.length := by
      rw [he]; exact List.countP_le_length _
    have hk2 : vi ≤ v.values.data.length := hk.trans (le_of_eq hl)
    have htk : ∀ b ∈ v.indices.data.take vi, b ≠ i := by
      intro b hb
      have hbi : b < i := by
        rw [he] at hb
        exact mem_take_countP_lt v.indices.data i hs b hb
      exact Nat.ne_of_lt hbi
    have hsplit : (v.set i x).2.indices.data =
        v.indices.data.take vi ++ i :: v.indices.data.drop vi := by
      simp [SparseVec.set, hbs, VecM.insert]
    have hfp2 : findPos ((v.set i x).2.indices.data) i = some vi := by
      rw [hsplit, findPos_append _ _ _ htk, List.length_take,
        Nat.min_eq_left hk]
    have hbs2 : binarySearch (v.set i x).2.indices.data i = Except.ok vi :=
      binarySearch_ok.mpr hfp2
    constructor
    · have hvals : (v.set i x).2.values.data =
          v.values.data.take vi ++ x :: v.values.data.drop vi := by
        simp [SparseVec.set, hbs, VecM.insert]
      simp [SparseVec.get, hbs2, hvals, getElem?_insert_self _ _ _ hk2]
    · simp [SparseVec.is_set, hbs2, isOkE]

/-- A strictly sorted list has no duplicates. -/
theorem sorted_nodup : ∀ (l : List Nat), l.Sorted (· < ·) → l.Nodup :=
  fun _ h => List.Pairwise.imp (fun hab => Nat.ne_of_lt hab) h

/-- Any sequence of insertions preserves the representation invariant. -/
theorem setAll_invariant {α : Type} :
    ∀ (ops : List (Nat × α)) (v : SparseVec α),
    Invariant v → Invariant (setAll v ops) := by
  intro ops
  induction ops with
  | nil => intro v h; exact h
  | cons p ps ih =>
    intro v h
    exact ih _ (set_invariant v p.1 p.2 h)

/-- C7 counterexample: indexing the unset index 9 on the empty container
panics with the fixed diagnostic `accessed and empty index`; the decimal
rendering `9` of the offending index does not occur in the diagnostic,
which contains no digit at all, so the diagnostic does not name the
offending index. -/
theorem index_message_refutation :
    SparseVec.indexGet (SparseVec.new_in (AllocVal.real 0) : SparseVec Nat) 9 =
      Except.error "accessed and empty index" ∧
    Nat.repr 9 = "9" ∧
    ¬ ('9' ∈ "accessed and empty index".toList) :=
  ⟨rfl, rfl, by decide⟩

/-- C7 amended: for every container and every unset index, direct indexing
and mutable direct indexing panic with the fixed diagnostic `accessed and
empty index` rather than producing a value; the diagnostic contains no
digit, so it does not name the offending index. -/
theorem index_unset_fixed_message : ∀ (α : Type) (v : SparseVec α) (i : Nat),
    v.get i = none →
    v.indexGet i = Except.error "accessed and empty index" ∧
    v.indexGetMut i = Except.error "accessed and empty index" ∧
    (∀ ch ∈ "accessed and empty index".toList, ch.isDigit = false) := by
  intro α v i h
  have hm : v.get_mut i = none := h
  refine ⟨?_, ?_, by decide⟩
  · simp [SparseVec.indexGet, h]
  · simp [SparseVec.indexGetMut, hm]

/-- C7 witness: the amended statement instantiated at the empty container
and index 9. -/
theorem index_unset_fixed_message_app :
    (SparseVec.new_in (AllocVal.real 0) : SparseVec Nat).get 9 = none ∧
    ((SparseVec.new_in (AllocVal.real 0) : SparseVec Nat).indexGet 9 =
        Except.error "accessed and empty index" ∧
      (SparseVec.new_in (AllocVal.real 0) : SparseVec Nat).indexGetMut 9 =
        Except.error "accessed and empty index" ∧
      (∀ ch ∈ "accessed and empty index".toList, ch.isDigit = false)) :=
  ⟨rfl, index_unset_fixed_message Nat (SparseVec.new_in (AllocVal.real 0)) 9 rfl⟩

/-- C1: under the representation invariant, `set` on an already set index
returns the previous value, keeps the index readable with the new value
stored, and leaves the count unchanged; `set` on an unset index returns the
absent marker `none`, increases the count by exactly one, and splices the
index and the value into the two lists at the sorted insertion point,
keeping the index list sorted. -/
theorem set_replaces_or_inserts : ∀ (α : Type) (v : SparseVec α) (i : Nat)
    (x : α), Invariant v →
    (v.is_set i = true →
      (v.set i x).1 = v.get i ∧
      (∃ w, v.get i = some w) ∧
      (v.set i x).2.get i = some x ∧
      (v.set i x).2.count = v.count) ∧
    (v.is_set i = false →
      (v.set i x).1 = none ∧
      (v.set i x).2.count = v.count + 1 ∧
      (v.set i x).2.indices.data =
        v.indices.data.take (v.indices.data.countP (fun z => decide (z < i))) ++
          i :: v.indices.data.drop
            (v.indices.data.countP (fun z => decide (z < i))) ∧
      (v.set i x).2.values.data =
        v.values.data.take (v.indices.data.countP (fun z => decide (z < i))) ++
          x :: v.values.data.drop
            (v.indices.data.countP (fun z => decide (z < i))) ∧
      (v.set i x).2.indices.data.Sorted (· < ·)) := by
  intro α v i x h
  obtain ⟨hs, hl⟩ := h
  cases hbs : binarySearch v.indices.data i with
  | ok vi =>
    have hfp := binarySearch_ok.mp hbs
    have hvi := findPos_lt_length _ _ _ hfp
    have hvi2 : vi < v.values.data.length := hl ▸ hvi
    constructor
    · intro _
      refine ⟨?_, ⟨v.values.data[vi], ?_⟩, ?_, ?_⟩
      · simp [SparseVec.set, SparseVec.get, hbs]
      · simp [SparseVec.get, hbs, List.getElem?_eq_getElem hvi2]
      · exact (set_get_self v i x ⟨hs, hl⟩).1
      · simp [SparseVec.set, hbs, SparseVec.count, VecM.setAt]
    · intro hfalse
      simp [SparseVec.is_set, hbs, isOkE] at hfalse
  | error vi =>
    obtain ⟨hfp, he⟩ := binarySearch_error.mp hbs
    have hk : vi ≤ v.indices.data.length := by
      rw [he]; exact List.countP_le_length _
    constructor
    · intro htrue
      simp [SparseVec.is_set, hbs, isOkE] at htrue
    · intro _
      refine ⟨?_, ?_, ?_, ?_, ?_⟩
      · simp [SparseVec.set, hbs]
      · simp only [SparseVec.set, hbs, SparseVec.count, VecM.insert]
        rw [length_insert_at _ _ _ hk]
      · simp [SparseVec.set, hbs, VecM.insert, he]
      · simp [SparseVec.set, hbs, VecM.insert, he]
      · have hnm := findPos_none_not_mem _ _ hfp
        have hsorted := insert_at_countP_sorted v.indices.data i hs hnm
        rw [← he] at hsorted
        simpa [SparseVec.set, hbs, VecM.insert] using hsorted

/-- C1 witness: the theorem applied at the sample container, once at the set
index 5 and once at the unset index 3. -/
theorem set_replaces_or_inserts_app :
    Invariant v0 ∧
    (v0.set 5 99).1 = v0.get 5 ∧
    (v0.set 5 99).2.get 5 = some 99 ∧
    (v0.set 5 99).2.count = v0.count ∧
    (v0.set 3 7).1 = none ∧
    (v0.set 3 7).2.count = v0.count + 1 ∧
    (v0.set 3 7).2.indices.data.Sorted (· < ·) :=
  ⟨by decide,
    ((set_replaces_or_inserts Nat v0 5 99 (by decide)).1 (by decide)).1,
    ((set_replaces_or_inserts Nat v0 5 99 (by decide)).1 (by decide)).2.2.1,
    ((set_replaces_or_inserts Nat v0 5 99 (by decide)).1 (by decide)).2.2.2,
    ((set_replaces_or_inserts Nat v0 3 7 (by decide)).2 (by decide)).1,
    ((set_replaces_or_inserts Nat v0 3 7 (by decide)).2 (by decide)).2.1,
    ((set_replaces_or_inserts Nat v0 3 7 (by decide)).2 (by decide)).2.2.2.2⟩

/-- C2: starting from any container satisfying the invariant, after any
sequence of insertions followed by one more `set`, the invariant still
holds, the set index tests set, `get` returns the just written value, and
the indices produced by iteration are strictly ascending. -/
theorem set_observed_after_any_sequence : ∀ (α : Type) (v : SparseVec α),
    Invariant v → ∀ (ops : List (Nat × α)) (i : Nat) (x : α),
    Invariant (setAll v ops) ∧
    ((setAll v ops).set i x).2.is_set i = true ∧
    ((setAll v ops).set i x).2.get i = some x ∧
    ((((setAll v ops).set i x).2.iter.map Prod.fst).Sorted (· < ·)) := by
  intro α v h ops i x
  have hall := setAll_invariant ops v h
  have hgot := set_get_self (setAll v ops) i x hall
  have hinv2 := set_invariant (setAll v ops) i x hall
  refine ⟨hall, hgot.2, hgot.1, ?_⟩
  obtain ⟨hs2, hl2⟩ := hinv2
  simp only [SparseVec.iter]
  rw [List.map_fst_zip _ _ (le_of_eq hl2)]
  exact hs2

/-- C2 witness: the theorem applied at the sample container with a concrete
sequence of insertions. -/
theorem set_observed_after_any_sequence_app :
    Invariant v0 ∧
    (Invariant (setAll v0 [(7, 3), (1, 4)]) ∧
      ((setAll v0 [(7, 3), (1, 4)]).set 5 9).2.is_set 5 = true ∧
      ((setAll v0 [(7, 3), (1, 4)]).set 5 9).2.get 5 = some 9 ∧
      ((((setAll v0 [(7, 3), (1, 4)]).set 5 9).2.iter.map
        Prod.fst).Sorted (· < ·))) :=
  ⟨by decide,
    set_observed_after_any_sequence Nat v0 (by decide) [(7, 3), (1, 4)] 5 9⟩

/-- C3: the invariant set (strictly increasing index list, no duplicate
indices, equal lengths) holds after construction, and is preserved by
reserve, by set, by the deconstruct-reconstruct round trip, and by
reconstruction from parts satisfying the documented sortedness
precondition; the query operations are pure functions of the container and
do not change it. -/
theorem invariant_all_ops : ∀ (α : Type) (a : AllocVal) (c : Nat)
    (v : SparseVec α) (s i : Nat) (x : α) (ind : VecM Nat) (vals : VecM α),
    Invariant v →
    ind.data.Sorted (· < ·) →
    ind.data.length = vals.data.length →
    FullInvariant (SparseVec.new_in a : SparseVec α) ∧
    FullInvariant (SparseVec.with_capacity_in c a : SparseVec α) ∧
    FullInvariant (v.reserve s) ∧
    FullInvariant (v.set i x).2 ∧
    FullInvariant (SparseVec.from_parts (v.into_parts).1 (v.into_parts).2) ∧
    FullInvariant (SparseVec.from_parts ind vals) := by
  intro α a c v s i x ind vals hv hsort hlen
  have full : ∀ (w : SparseVec α), Invariant w → FullInvariant w := by
    intro w hw
    exact ⟨hw.1, sorted_nodup _ hw.1, hw.2⟩
  refine ⟨?_, ?_, ?_, ?_, ?_, ?_⟩
  · exact full _ ⟨List.sorted_nil, rfl⟩
  · exact full _ ⟨List.sorted_nil, rfl⟩
  · exact full _ hv
  · exact full _ (set_invariant v i x hv)
  · exact full _ hv
  · exact ⟨hsort, sorted_nodup _ hsort, hlen⟩

/-- C3 witness: the theorem applied at the sample container with concrete
reconstruction parts. -/
theorem invariant_all_ops_app :
    (Invariant v0 ∧
      (VecM.mk [1, 2] 2 (AllocVal.real 0) : VecM Nat).data.Sorted (· < ·) ∧
      (VecM.mk [1, 2] 2 (AllocVal.real 0) : VecM Nat).data.length =
        (VecM.mk [8, 9] 2 (AllocVal.real 0) : VecM Nat).data.length) ∧
    (FullInvariant (SparseVec.new_in (AllocVal.real 1) : SparseVec Nat) ∧
      FullInvariant (SparseVec.with_capacity_in 3 (AllocVal.real 1) :
        SparseVec Nat) ∧
      FullInvariant (v0.reserve 2) ∧
      FullInvariant (v0.set 5 9).2 ∧
      FullInvariant (SparseVec.from_parts (v0.into_parts).1
        (v0.into_parts).2) ∧
      FullInvariant (SparseVec.from_parts (VecM.mk [1, 2] 2 (AllocVal.real 0))
        (VecM.mk [8, 9] 2 (AllocVal.real 0)))) :=
  ⟨⟨by decide, by decide, rfl⟩,
    invariant_all_ops Nat (AllocVal.real 1) 3 v0 2 5 9
      (VecM.mk [1, 2] 2 (AllocVal.real 0)) (VecM.mk [8, 9] 2 (AllocVal.real 0))
      (by decide) (by decide) rfl⟩

end SparseVecLib
